import Mathlib

/-!
Verification development for the ziggurat document-translation pipeline.

The definitions below are a shallow embedding of the Rust sources:
`src/pdf.rs` (batched concurrent translation of PDF pages plus the
pagination engine), `src/filetypes/epub.rs` (the markup path:
placeholder protection, DOM text-node rewrite, EPUB assembly),
`src/options.rs` (configuration structs) and `src/google.rs` (the
bundled Google translation provider).

Modelling conventions, stated once here:

* Machine floats: the source stores page geometry in `f64`.  The
  embedding uses `Fr`, an exact fraction of `Int`s with the operations
  the source performs (subtraction, multiplication, division,
  comparison, `min`).  Every constant in the configurations exercised
  by the claims is an integer, on which `f64` arithmetic is exact, so
  `Fr` agrees with the source on all values the theorems touch.
  Denominators are positive in every reachable computation
  (constructed from `Fr.ofInt` and divisions by positive dimensions),
  which is the regime where `Fr.blt` implements the `f64` order.

* External crates (`regex`, `tl`, the HTTP client, `lopdf` parsing,
  `epub` container reading) are collaborators outside the core, per
  the crate boundaries: where the core consumes their output, the
  embedding takes that output as an explicit parameter (the list of
  regex captures, the parsed DOM node list, the wire response).

* Concurrency: `futures::stream::buffer_unordered` starts the batch
  futures in stream order, at most `max_concurrency` in flight, and
  yields each result in completion order.  The embedding makes the
  nondeterministic completion order an explicit parameter `σ` (the
  list of batch indices in completion order); `collectUnordered`
  reproduces what `.buffer_unordered(..).collect()` hands downstream
  for that completion order.  `bufferUnorderedAdmissible` captures
  which completion orders the primitive can actually produce: futures
  are started in order, so batch `t` can finish at position `p` only
  if it has already started, i.e. fewer than `max_concurrency` of the
  earlier batches were still in flight, giving `t < p + c`.

* Fallible Rust functions returning `eyre::Result` are embedded as
  `Except String` (or `Except ε`); `?` becomes monadic bind.
-/

set_option maxRecDepth 8000

/-- Exact fraction of integers standing in for the source's `f64`
geometry values (see the header comment).  No normalisation is
performed; all constructors used keep the denominator positive. -/
structure Fr where
  num : Int
  den : Int
  deriving DecidableEq, Repr

/-- Embed an integer constant, as written in `PdfOptions::default` and
the numeric literals of `src/pdf.rs`. -/
def Fr.ofInt (n : Int) : Fr := ⟨n, 1⟩

/-- `a - b` on the geometry values. -/
def Fr.sub (a b : Fr) : Fr := ⟨a.num * b.den - b.num * a.den, a.den * b.den⟩

/-- `a + b` on the geometry values. -/
def Fr.add (a b : Fr) : Fr := ⟨a.num * b.den + b.num * a.den, a.den * b.den⟩

/-- `a * b` on the geometry values. -/
def Fr.mul (a b : Fr) : Fr := ⟨a.num * b.num, a.den * b.den⟩

/-- `a / b` on the geometry values (used by `calculate_image_scale`). -/
def Fr.div (a b : Fr) : Fr := ⟨a.num * b.den, a.den * b.num⟩

/-- Unary negation (the source pushes `-line_height` etc. into the
content stream operands). -/
def Fr.neg (a : Fr) : Fr := ⟨-a.num, a.den⟩

/-- `a < b`, valid for positive denominators. -/
def Fr.blt (a b : Fr) : Bool := a.num * b.den < b.num * a.den

/-- `f64::min`, as used in `calculate_image_scale`. -/
def Fr.fmin (a b : Fr) : Fr := if Fr.blt a b then a else b

/-! ## Batching (`src/pdf.rs::edit_pdf`, lines 71-86)

The source accumulates `(text, page_id)` pairs into `current_batch`
and flushes into `snippet_batches` whenever `current_batch.len() >=
request_options.batch_size`; after the loop a non-empty remainder is
flushed.  `makeBatchesGo` is that loop with the accumulators explicit.
-/

def makeBatchesGo (B : Nat) : List (List α) → List α → List α → List (List α)
  | batches, current, [] =>
      if current.isEmpty then batches else batches ++ [current]
  | batches, current, x :: xs =>
      let current := current ++ [x]
      if B ≤ current.length then makeBatchesGo B (batches ++ [current]) [] xs
      else makeBatchesGo B batches current xs

/-- The batch-partition step of `edit_pdf`. -/
def makeBatches (s : List α) (B : Nat) : List (List α) := makeBatchesGo B [] [] s

/-! ## Batching, markup path (`src/filetypes/epub.rs::edit_html`, line 88)

The epub path partitions the text-node index list with
`slice::chunks(batch_size)`: contiguous runs of `batch_size` elements,
last chunk possibly shorter.  `chunks(0)` panics in Rust; the
embedding returns `[]` in that (never legitimately reached) case.
`chunksGo` carries fuel so that it is structurally recursive; fuel
`s.length` suffices because every step drops at least one element when
`B ≥ 1`. -/

def chunksGo (B : Nat) : Nat → List α → List (List α)
  | 0, _ => []
  | _ + 1, [] => []
  | fuel + 1, x :: xs =>
      (x :: xs).take B :: chunksGo B fuel ((x :: xs).drop B)

/-- `slice::chunks` as used on the text-node index list. -/
def chunksE (B : Nat) (s : List α) : List (List α) :=
  if B = 0 then [] else chunksGo B s.length s

/-! ## Completion-order collection (`buffer_unordered` + `collect`) -/

/-- What `.buffer_unordered(..).collect()` delivers downstream when the
tasks of `tasks` complete in the order listed by `σ` (a permutation of
the task indices): the task results in completion order. -/
def collectUnordered (σ : List Nat) (tasks : List β) : List β :=
  σ.filterMap fun i => tasks.get? i

/-- The completion orders `buffer_unordered` with concurrency cap `c`
over `n` tasks can actually produce: a permutation of the indices in
which task `t` can only complete at position `p` once it has started,
which requires all but at most `c - 1` of the earlier-indexed tasks to
have completed already, i.e. `t < p + c`. -/
def bufferUnorderedAdmissible (c n : Nat) (σ : List Nat) : Prop :=
  σ.Perm (List.range n) ∧ ∀ t ∈ σ, t < σ.indexOf t + c

/-- The translated-snippet pipeline of `edit_pdf` (lines 71-110 of
`src/pdf.rs`), with the page-id plumbing projected away: partition the
extracted snippets into batches, run `edit_func` on every batch, let
`buffer_unordered`/`try_collect` deliver the per-batch results in
completion order `σ`, and consume them in exactly that order (the
merge loop at lines 104-110 iterates `results` directly; no reordering
by batch index happens). -/
def editPdfSnippets (snippets : List α) (B : Nat) (σ : List Nat)
    (f : List α → Except ε (List α)) : Except ε (List α) :=
  match (collectUnordered σ (makeBatches snippets B)).mapM f with
  | .error e => .error e
  | .ok results => .ok results.flatten

/-- The same merge loop keeping the `(text, page_id)` pairs: each batch
task (lines 92-97) unzips its batch, translates the snippet halves and
re-pairs the result positionally with the page ids of that batch
(lines 104-110 zip them back). `f` is the successful translation. -/
def batchTask (f : List String → List String) (batch : List (String × Nat)) :
    List (String × Nat) :=
  (f batch.unzip.1).zip batch.unzip.2

/-- Merged output of `edit_pdf` at the granularity of
`(translated snippet, source page id)` pairs, for completion order `σ`. -/
def editPdfMergedPairs (batches : List (List (String × Nat))) (σ : List Nat)
    (f : List String → List String) : List (String × Nat) :=
  ((collectUnordered σ batches).map (batchTask f)).flatten

/-! ## Pagination engine (`src/pdf.rs`, lines 19-34 and 221-399)

Content-stream operations (`lopdf::content::Operation`) restricted to
the constructors the source emits.  Text operands are carried as
`List Char` (the source's `String`); numeric operands as `Fr`. -/

inductive Op where
  | BT : Op
  | ET : Op
  | Tf (font : List Char) (size : Fr) : Op
  | Td (x y : Fr) : Op
  | Tj (text : List Char) : Op
  | qOp : Op
  | QOp : Op
  | cm (a b c d e f : Fr) : Op
  | doXObject (name : List Char) : Op
  deriving DecidableEq, Repr

/-- `PdfOptions` (`src/options.rs`, lines 15-23). -/
structure PdfOptions where
  max_width : Fr
  line_height : Fr
  paragraph_spacing : Fr
  min_y_pos : Fr
  max_y_pos : Fr
  max_image_width : Fr
  max_image_height : Fr

/-- `PdfOptions::default` (`src/options.rs`, lines 25-37). -/
def defaultPdfOptions : PdfOptions :=
  { max_width := Fr.ofInt 500
    line_height := Fr.ofInt 14
    paragraph_spacing := Fr.ofInt 20
    min_y_pos := Fr.ofInt 50
    max_y_pos := Fr.ofInt 750
    max_image_width := Fr.ofInt 500
    max_image_height := Fr.ofInt 700 }

/-- `new_page_operations` (`src/pdf.rs`, lines 393-399). -/
def new_page_operations : List Op :=
  [Op.BT, Op.Tf "F1".data (Fr.ofInt 12), Op.Td (Fr.ofInt 50) (Fr.ofInt 750)]

/-- `PagesState` (`src/pdf.rs`, lines 19-23): each `Content` is its
operation list. -/
structure PagesState where
  pages : List (List Op)
  y_pos : Fr
  deriving Repr

/-- `PagesState::new` (`src/pdf.rs`, lines 25-34). -/
def PagesState.new (options : PdfOptions) : PagesState :=
  { pages := [new_page_operations], y_pos := options.max_y_pos }

/-- The relevant fields of `lopdf::xobject::PdfImage`: resource id and
pixel dimensions (`u32` in the source). -/
structure PdfImage where
  id : Nat
  width : Nat
  height : Nat
  deriving DecidableEq, Repr

/-- `string_width` (`src/pdf.rs`, lines 388-391): byte length times the
fixed character width 7.0. -/
def string_width (s : List Char) : Fr :=
  Fr.mul (Fr.ofInt (s.foldl (fun n c => n + c.utf8Size) 0 : Nat)) (Fr.ofInt 7)

/-- `str::split_whitespace`, used by `format_paragraph` (line 244):
maximal runs of non-whitespace characters. -/
def splitWsGo : List Char → List Char → List (List Char)
  | current, [] => if current.isEmpty then [] else [current.reverse]
  | current, c :: rest =>
      if c.isWhitespace then
        if current.isEmpty then splitWsGo [] rest
        else current.reverse :: splitWsGo [] rest
      else splitWsGo (c :: current) rest

/-- `paragraph.split_whitespace().collect()`. -/
def splitWs (s : List Char) : List (List Char) := splitWsGo [] s

/-- `add_line_to_page` (`src/pdf.rs`, lines 271-282): if a last page
exists, append the `Tj`/`Td` pair to it and advance the cursor. -/
def add_line_to_page (st : PagesState) (line : List Char) (line_height : Fr) :
    PagesState :=
  match st.pages.getLast? with
  | none => st
  | some last =>
      { pages := st.pages.dropLast
          ++ [last ++ [Op.Tj line, Op.Td (Fr.ofInt 0) (Fr.neg line_height)]]
        y_pos := Fr.sub st.y_pos line_height }

/-- `check_and_create_new_page` (`src/pdf.rs`, lines 284-291). -/
def check_and_create_new_page (st : PagesState) (options : PdfOptions) :
    PagesState :=
  if Fr.blt st.y_pos options.min_y_pos then
    { pages := st.pages ++ [new_page_operations], y_pos := options.max_y_pos }
  else st

/-- `add_paragraph_spacing` (`src/pdf.rs`, lines 293-317). -/
def add_paragraph_spacing (options : PdfOptions) (st : PagesState)
    (paragraph_spacing : Fr) : PagesState :=
  match st.pages.getLast? with
  | none => st
  | some last =>
      let y := Fr.sub st.y_pos paragraph_spacing
      let last := last ++ [Op.Td (Fr.ofInt 0) (Fr.neg paragraph_spacing)]
      if Fr.blt y options.min_y_pos then
        { pages := st.pages.dropLast
            ++ [last ++ [Op.ET, Op.BT, Op.Td (Fr.ofInt 50) options.max_y_pos],
                new_page_operations]
          y_pos := options.max_y_pos }
      else
        { pages := st.pages.dropLast ++ [last], y_pos := y }

/-- `end_text_section` (`src/pdf.rs`, lines 319-323). -/
def end_text_section (st : PagesState) : PagesState :=
  match st.pages.getLast? with
  | none => st
  | some last => { st with pages := st.pages.dropLast ++ [last ++ [Op.ET]] }

/-- `calculate_image_scale` (`src/pdf.rs`, lines 346-350). -/
def calculate_image_scale (image : PdfImage) (max_width max_height : Fr) : Fr :=
  let width_scale := Fr.div max_width (Fr.ofInt image.width)
  let height_scale := Fr.div max_height (Fr.ofInt image.height)
  Fr.fmin (Fr.fmin width_scale height_scale) (Fr.ofInt 1)

/-- `create_new_page_for_image` (`src/pdf.rs`, lines 352-364): push a
fresh page, reset the cursor, then append the `BT`/`Td`/`ET` prologue
to that new last page. -/
def create_new_page_for_image (st : PagesState) (max_y_pos : Fr) : PagesState :=
  let st : PagesState :=
    { pages := st.pages ++ [new_page_operations], y_pos := max_y_pos }
  match st.pages.getLast? with
  | none => st
  | some last =>
      { st with pages := st.pages.dropLast
          ++ [last ++ [Op.BT, Op.Td (Fr.ofInt 50) max_y_pos, Op.ET]] }

/-- `add_image_operations` (`src/pdf.rs`, lines 366-386). -/
def add_image_operations (page : List Op) (image : PdfImage)
    (width height y_pos : Fr) : List Op :=
  page ++
    [Op.qOp,
     Op.cm width (Fr.ofInt 0) (Fr.ofInt 0) height (Fr.ofInt 50)
       (Fr.sub y_pos height),
     Op.doXObject (("Im".data) ++ (Nat.repr image.id).data),
     Op.QOp]

/-- `add_image` (`src/pdf.rs`, lines 325-344). -/
def add_image (options : PdfOptions) (st : PagesState) (image : PdfImage) :
    PagesState :=
  let scale := calculate_image_scale image options.max_image_width
    options.max_image_height
  let scaled_width := Fr.mul (Fr.ofInt image.width) scale
  let scaled_height := Fr.mul (Fr.ofInt image.height) scale
  let st :=
    if Fr.blt (Fr.sub st.y_pos scaled_height) options.min_y_pos then
      create_new_page_for_image st options.max_y_pos
    else st
  match st.pages.getLast? with
  | none => st
  | some last =>
      { pages := st.pages.dropLast
          ++ [add_image_operations last image scaled_width scaled_height
                st.y_pos]
        y_pos := Fr.sub st.y_pos (Fr.add scaled_height (Fr.ofInt 10)) }

/-- One iteration of the word loop in `format_paragraph` (`src/pdf.rs`,
lines 247-262): extend the candidate line, flush the previous line on
overflow, then run the page check. -/
def formatParaStep (options : PdfOptions) (acc : PagesState × List Char)
    (word : List Char) : PagesState × List Char :=
  let st := acc.1
  let current_line := acc.2
  let test_line :=
    if current_line.isEmpty then word else current_line ++ [' '] ++ word
  let next :=
    if Fr.blt options.max_width (string_width test_line) then
      (add_line_to_page st current_line options.line_height, word)
    else
      (st, test_line)
  (check_and_create_new_page next.1 options, next.2)

/-- `format_paragraph` (`src/pdf.rs`, lines 243-269). -/
def format_paragraph (options : PdfOptions) (st : PagesState)
    (paragraph : List Char) : PagesState :=
  let words := splitWs paragraph
  let folded := words.foldl (formatParaStep options) (st, [])
  let st :=
    if folded.2.isEmpty then folded.1
    else add_line_to_page folded.1 folded.2 (Fr.ofInt 0)
  add_paragraph_spacing options st options.paragraph_spacing

/-- `format_content` (`src/pdf.rs`, lines 221-241).  The paragraph
split is performed in the source by the external `regex` crate
(`\n\s*\n`); the embedding takes the resulting paragraph list as the
parameter `paragraphs`. -/
def format_content (options : PdfOptions) (st : PagesState)
    (paragraphs : List (List Char)) (images : List PdfImage) : PagesState :=
  let st := paragraphs.foldl (format_paragraph options) st
  let st := end_text_section st
  let st := images.foldl (add_image options) st
  end_text_section st

/-- The operations `edit_pdf`'s merge loop applies to the shared
`PagesState`; used to state that the open-page list never empties
whatever sequence of calls the pipeline performs. -/
inductive PdfStep where
  | line (text : List Char) (line_height : Fr) : PdfStep
  | pageCheck : PdfStep
  | spacing (amount : Fr) : PdfStep
  | endText : PdfStep
  | image (img : PdfImage) : PdfStep
  | paragraph (text : List Char) : PdfStep
  | content (paragraphs : List (List Char)) (images : List PdfImage) : PdfStep

/-- Interpret one `PdfStep` on the pagination state. -/
def applyPdfStep (options : PdfOptions) (st : PagesState) :
    PdfStep → PagesState
  | .line t h => add_line_to_page st t h
  | .pageCheck => check_and_create_new_page st options
  | .spacing a => add_paragraph_spacing options st a
  | .endText => end_text_section st
  | .image img => add_image options st img
  | .paragraph t => format_paragraph options st t
  | .content ps imgs => format_content options st ps imgs

/-! ## Placeholder protection (`src/filetypes/epub.rs`, lines 128-148)

`str::replace(pattern, replacement)` replaces every non-overlapping
occurrence of `pattern`, scanning left to right and skipping past each
replacement.  `replaceAllGo` is that scan over `List Char`, with fuel
for structural recursion; fuel `s.length` suffices since every step
consumes at least one character (all patterns in the source paths are
non-empty; for an empty pattern this embedding is the identity). -/

def replaceAllGo (pat rep : List Char) : Nat → List Char → List Char
  | 0, s => s
  | _ + 1, [] => []
  | fuel + 1, c :: rest =>
      if !pat.isEmpty && pat.isPrefixOf (c :: rest) then
        rep ++ replaceAllGo pat rep fuel (rest.drop (pat.length - 1))
      else
        c :: replaceAllGo pat rep fuel rest

/-- `str::replace`: replace all occurrences of `pat` in `s` by `rep`. -/
def replaceAll (s pat rep : List Char) : List Char :=
  replaceAllGo pat rep s.length s

/-- Number of non-overlapping occurrences of `pat` in `s` (same scan as
`replaceAll`); used to state where placeholders survive. -/
def countOccGo (pat : List Char) : Nat → List Char → Nat
  | 0, _ => 0
  | _ + 1, [] => 0
  | fuel + 1, c :: rest =>
      if !pat.isEmpty && pat.isPrefixOf (c :: rest) then
        1 + countOccGo pat fuel (rest.drop (pat.length - 1))
      else
        countOccGo pat fuel rest

/-- Count occurrences of `pat` in `s`. -/
def countOcc (s pat : List Char) : Nat := countOccGo pat s.length s

/-- `replace_special_tags` (`src/filetypes/epub.rs`, lines 128-141).
The regex `<.*pagebreak.*>` is evaluated by the external `regex`
crate; `caps` is the list of its matches over the original `html`, in
match order (`captures_iter` iterates the original string while the
replacement is applied to the accumulating copy, exactly as in the
source loop).  Each capture appends one `(placeholder, tag)` pair and
replaces every occurrence of the tag text in the working copy. -/
def replace_special_tags (html : List Char) (caps : List (List Char)) :
    List Char × List (List Char × List Char) :=
  caps.foldl
    (fun acc tag =>
      let placeholder := "SPECIAL_TAG_".data ++ (Nat.repr acc.2.length).data
      (replaceAll acc.1 tag placeholder, acc.2 ++ [(placeholder, tag)]))
    (html, [])

/-- `restore_special_tags` (`src/filetypes/epub.rs`, lines 143-148):
replace each recorded placeholder by its tag, in recording order. -/
def restore_special_tags (html : List Char)
    (special_tags : List (List Char × List Char)) : List Char :=
  special_tags.foldl (fun h pt => replaceAll h pt.1 pt.2) html

/-! ## DOM text pipeline (`src/filetypes/epub.rs::edit_html`, lines 64-126)

The `tl` crate's DOM is abstracted to the node list the source walks:
`dom.nodes()` enumerated in order, each node either a raw text node
(`Node::Raw`) or other markup; `outer_html` re-serialises by
concatenating node source text.  `parseFn` stands for
`tl::parse(&html, ParserOptions::default())`. -/

inductive HNode where
  | raw (text : List Char) : HNode
  | other (text : List Char) : HNode
  deriving DecidableEq, Repr

/-- Whether a node is `Node::Raw`. -/
def HNode.isRaw : HNode → Bool
  | .raw _ => true
  | .other _ => false

/-- Source text of a node. -/
def HNode.text : HNode → List Char
  | .raw t => t
  | .other t => t

/-- `dom.outer_html()` on the abstracted DOM. -/
def serializeDom (nodes : List HNode) : List Char :=
  (nodes.map HNode.text).flatten

/-- `edit_html` (`src/filetypes/epub.rs`, lines 64-126): protect the
pagebreak tags, parse, collect the indices of raw text nodes, chunk
them by `batch_size`, translate every chunk as one task (results
delivered in completion order `σ`), write each translated snippet back
to its node by node id, serialise, and blindly restore the recorded
placeholders.  No check compares the surviving placeholder set against
the recorded one. -/
def edit_html (html : List Char) (caps : List (List Char))
    (parseFn : List Char → List HNode) (batch_size : Nat) (σ : List Nat)
    (edit_func : List (List Char) → Except (List Char) (List (List Char))) :
    Except (List Char) (List Char) :=
  let protected_ := replace_special_tags html caps
  let nodes := parseFn protected_.1
  let text_nodes :=
    (List.range nodes.length).filter fun i => ((nodes.get? i).map HNode.isRaw).getD false
  let chunks := chunksE batch_size text_nodes
  let tasks := chunks.map fun chunk =>
    let snippets := chunk.filterMap fun i =>
      match nodes.get? i with
      | some (HNode.raw t) => some t
      | _ => none
    (edit_func snippets).map fun edited => (chunk, edited)
  match (collectUnordered σ tasks).mapM (fun r => r) with
  | .error e => .error e
  | .ok results =>
      let nodes :=
        results.foldl
          (fun ns cr =>
            (cr.1.zip cr.2).foldl (fun ns ie => ns.set ie.1 (HNode.raw ie.2)) ns)
          nodes
      .ok (restore_special_tags (serializeDom nodes) protected_.2)

/-! ## EPUB assembly (`src/filetypes/epub.rs::write_epub`, lines 150-232) -/

/-- The parts of `EpubDoc` that `add_content_with_chapters` reads: the
spine item ids, the manifest (`resources`: id to `(path, mime)`), and
`get_resource_str_by_path`. -/
structure EpubDocM where
  spine : List String
  resources : String → Option (String × String)
  resourceStr : String → Option String

/-- `add_content_with_chapters` (`src/filetypes/epub.rs`, lines
203-232), with the builder's accumulated `(path, content, title)`
entries made explicit.  A spine item with no manifest entry is logged
and skipped (the `else` branch); an item whose manifest entry exists
but is neither edited nor loadable aborts with an error (the
`ok_or_else(..)?`).  Paths are modelled as `String`, always valid. -/
def add_content_with_chapters (doc : EpubDocM)
    (edited_content : String → Option String) :
    Except String (List (String × String × String)) :=
  doc.spine.foldlM
    (fun acc item_id =>
      match doc.resources item_id with
      | some pm =>
          match edited_content item_id with
          | some edited => .ok (acc ++ [(pm.1, edited, item_id)])
          | none =>
              match doc.resourceStr pm.1 with
              | some content => .ok (acc ++ [(pm.1, content, item_id)])
              | none => .error ("Resource not found " ++ pm.1)
      | none => .ok acc)
    []

/-! ## Google provider (`src/google.rs`, lines 78-117) -/

/-- `is_whitespace` (`src/google.rs`, lines 114-116). -/
def is_whitespace (snippet : String) : Bool :=
  snippet.data.all fun c => c.isWhitespace

/-- `translate_text` (`src/google.rs`, lines 78-112): the whitespace
filter applied before the request is built, with the HTTP round trip
abstracted as `service` (the list of translated texts the v2 endpoint
returns for the request items). -/
def translate_text (snippets : List String)
    (service : List String → List String) : List String :=
  service (snippets.filter fun s => !is_whitespace s)

/-! ## Remaining configuration model and concrete test fixtures -/

/-- `RequestOptions` (`src/options.rs`, lines 1-4): a plain struct with
public fields; the source has no validating constructor. -/
structure RequestOptions where
  batch_size : Nat
  max_concurrency : Nat

/-- `RequestOptions::default` (`src/options.rs`, lines 6-13). -/
def defaultRequestOptions : RequestOptions :=
  { batch_size := 10, max_concurrency := 5 }

/-- Number of `Tj` (show text) operations in a content stream: one per
wrapped line written to that page. -/
def countTj (ops : List Op) : Nat :=
  ops.countP fun op => match op with | Op.Tj _ => true | _ => false

/-- Geometry with the thresholds named by the page-break claim
(`min_y_pos = 50`, `max_y_pos = 750`, `line_height = 14`) and a
`max_width` that fits exactly one one-byte word per line, so that a
run of single-letter words wraps one word per line. -/
def narrowOptions : PdfOptions :=
  { max_width := Fr.ofInt 7
    line_height := Fr.ofInt 14
    paragraph_spacing := Fr.ofInt 20
    min_y_pos := Fr.ofInt 50
    max_y_pos := Fr.ofInt 750
    max_image_width := Fr.ofInt 500
    max_image_height := Fr.ofInt 700 }

/-- A paragraph of 52 single-letter words: under `narrowOptions` it
wraps into 52 lines. -/
def para52 : List Char := List.intercalate [' '] (List.replicate 52 ['a'])

/-- The pagination state after formatting `para52` from a fresh state. -/
def paraState52 : PagesState :=
  format_paragraph narrowOptions (PagesState.new narrowOptions) para52

/-- Eleven pairwise-distinct pagebreak tags (the regex
`<.*pagebreak.*>` matches each full line below). -/
def pagebreakTags11 : List (List Char) :=
  ["<a pagebreak>".data, "<b pagebreak>".data, "<c pagebreak>".data,
   "<d pagebreak>".data, "<e pagebreak>".data, "<f pagebreak>".data,
   "<g pagebreak>".data, "<h pagebreak>".data, "<i pagebreak>".data,
   "<j pagebreak>".data, "<k pagebreak>".data]

/-- A document holding the eleven tags on separate lines (`.` in the
regex does not cross newlines, so the captures are exactly
`pagebreakTags11` in order). -/
def htmlEleven : List Char := List.intercalate ['\n'] pagebreakTags11

/-- Two distinct pagebreak tags on separate lines. -/
def pagebreakTags2 : List (List Char) :=
  ["<a pagebreak>".data, "<b pagebreak>".data]

/-- A document holding the two tags. -/
def htmlTwo : List Char := List.intercalate ['\n'] pagebreakTags2

/-- A single pagebreak tag followed by text; after protection the
whole document is one raw text node. -/
def pbTag : List Char := "<b pagebreak>".data

/-- The document `<b pagebreak>hello`. -/
def htmlWithTag : List Char := "<b pagebreak>hello".data

/-- An epub whose first spine item has a manifest entry but whose
backing resource cannot be read (and was not edited). -/
def epubDocUnreadable : EpubDocM :=
  { spine := ["c1", "c2"]
    resources := fun item_id =>
      if item_id = "c1" then some ("p1", "application/xhtml+xml")
      else if item_id = "c2" then some ("p2", "application/xhtml+xml")
      else none
    resourceStr := fun _ => none }

/-- An epub whose first spine item has no manifest entry at all, while
the second one is intact and edited. -/
def epubDocMissingEntry : EpubDocM :=
  { spine := ["ghost", "c2"]
    resources := fun item_id =>
      if item_id = "c2" then some ("p2", "application/xhtml+xml") else none
    resourceStr := fun path => if path = "p2" then some "original" else none }

/-! ## Lemmas about the batch partition -/

/-- Ceiling-division arithmetic fact used for batch counts. -/
theorem ceilDivAux (B c : Nat) (h1 : 1 ≤ c) (h2 : c ≤ B) : (c + B - 1) / B = 1 := by
  rw [show c + B - 1 = (c - 1) + B from by omega,
    Nat.add_div_right _ (by omega : 0 < B),
    Nat.div_eq_of_lt (by omega)]

theorem makeBatchesGo_append (B : Nat) (s : List α) :
    ∀ (bs : List (List α)) (cur : List α),
      makeBatchesGo B bs cur s = bs ++ makeBatchesGo B [] cur s := by
  induction s with
  | nil =>
      intro bs cur
      by_cases h : cur.isEmpty <;> simp [makeBatchesGo, h]
  | cons x xs ih =>
      intro bs cur
      simp only [makeBatchesGo]
      by_cases h : B ≤ (cur ++ [x]).length
      · simp only [h, if_pos]
        rw [ih (bs ++ [cur ++ [x]]), ih ([] ++ [cur ++ [x]])]
        simp
      · simp only [h, if_neg, not_false_iff]
        exact ih bs (cur ++ [x])

theorem makeBatchesGo_flatten (B : Nat) (s : List α) :
    ∀ (bs : List (List α)) (cur : List α),
      (makeBatchesGo B bs cur s).flatten = bs.flatten ++ cur ++ s := by
  induction s with
  | nil =>
      intro bs cur
      rcases cur with _ | ⟨c, cur⟩ <;> simp [makeBatchesGo]
  | cons x xs ih =>
      intro bs cur
      simp only [makeBatchesGo]
      by_cases h : B ≤ (cur ++ [x]).length
      · simp only [h, if_pos]
        rw [ih]
        simp
      · simp only [h, if_neg, not_false_iff]
        rw [ih]
        simp

theorem makeBatchesGo_length (B : Nat) (hB : 1 ≤ B) (s : List α) :
    ∀ cur : List α, cur.length < B →
      (makeBatchesGo B [] cur s).length = (cur.length + s.length + B - 1) / B := by
  induction s with
  | nil =>
      intro cur hcur
      rcases cur with _ | ⟨c, cur⟩
      · simp only [makeBatchesGo, List.isEmpty_nil, if_pos, List.length_nil]
        rw [Nat.div_eq_of_lt (by omega)]
      · simp only [List.length_cons] at hcur
        simp only [makeBatchesGo, List.isEmpty_cons, Bool.false_eq_true,
          if_neg, not_false_iff, List.nil_append, List.length_singleton,
          List.length_cons, List.length_nil]
        rw [show cur.length + 1 + 0 + B - 1 = cur.length + 1 + B - 1 from by
          omega]
        rw [ceilDivAux B (cur.length + 1) (by omega) (by omega)]
  | cons x xs ih =>
      intro cur hcur
      simp only [makeBatchesGo]
      by_cases h : B ≤ (cur ++ [x]).length
      · have hEq : cur.length + 1 = B := by
          simp only [List.length_append, List.length_singleton,
            List.length_cons, List.length_nil] at h
          omega
        simp only [h, if_pos]
        rw [makeBatchesGo_append, List.length_append,
          ih [] (by simp only [List.length_nil]; omega)]
        have h1 : ([] : List α).length + xs.length + B - 1
            = xs.length + B - 1 := by simp
        have h2 : cur.length + (x :: xs).length + B - 1
            = (xs.length + B - 1) + B := by
          simp only [List.length_cons]
          omega
        rw [h1, h2, Nat.add_div_right _ (by omega : 0 < B)]
        simp only [List.nil_append, List.length_singleton]
        exact Nat.add_comm 1 _
      · have hlt : (cur ++ [x]).length < B := by
          have h' := h
          simp only [List.length_append, List.length_singleton,
            List.length_cons, List.length_nil] at h' ⊢
          omega
        simp only [h, if_neg, not_false_iff]
        rw [ih (cur ++ [x]) hlt]
        have h3 : (cur ++ [x]).length + xs.length + B - 1
            = cur.length + (x :: xs).length + B - 1 := by
          simp only [List.length_append, List.length_singleton,
            List.length_cons, List.length_nil]
          omega
        rw [h3]

theorem makeBatchesGo_sizes (B : Nat) (s : List α) :
    ∀ (bs : List (List α)) (cur : List α), (∀ b ∈ bs, b.length = B) →
      cur.length < B →
      ∀ b ∈ (makeBatchesGo B bs cur s).dropLast, b.length = B := by
  induction s with
  | nil =>
      intro bs cur hbs _ b hb
      rcases hcur : cur.isEmpty with _ | _
      · simp only [makeBatchesGo, hcur, Bool.false_eq_true, if_neg,
          not_false_iff] at hb
        rw [List.dropLast_concat] at hb
        exact hbs b hb
      · simp only [makeBatchesGo, hcur, if_pos] at hb
        exact hbs b ((List.dropLast_sublist bs).subset hb)
  | cons x xs ih =>
      intro bs cur hbs hcur b hb
      simp only [makeBatchesGo] at hb
      by_cases h : B ≤ (cur ++ [x]).length
      · have hEq : (cur ++ [x]).length = B := by
          simp only [List.length_append, List.length_singleton,
            List.length_cons, List.length_nil] at h ⊢
          omega
        simp only [h, if_pos] at hb
        refine ih (bs ++ [cur ++ [x]]) []
          ?_ (by simp only [List.length_nil]; omega) b hb
        intro b' hb'
        rcases List.mem_append.mp hb' with h' | h'
        · exact hbs b' h'
        · rw [List.mem_singleton.mp h']
          exact hEq
      · have hlt : (cur ++ [x]).length < B := by
          have h' := h
          simp only [List.length_append, List.length_singleton,
            List.length_cons, List.length_nil] at h' ⊢
          omega
        simp only [h, if_neg, not_false_iff] at hb
        exact ih bs (cur ++ [x]) hbs hlt b hb

theorem chunksGo_flatten (B : Nat) (hB : 1 ≤ B) :
    ∀ (fuel : Nat) (s : List α), s.length ≤ fuel →
      (chunksGo B fuel s).flatten = s := by
  intro fuel
  induction fuel with
  | zero =>
      intro s hs
      have hnil : s = [] := List.eq_nil_of_length_eq_zero (by omega)
      subst hnil
      simp [chunksGo]
  | succ n ih =>
      intro s hs
      rcases s with _ | ⟨x, xs⟩
      · simp [chunksGo]
      · simp only [chunksGo, List.flatten_cons]
        rw [ih ((x :: xs).drop B) (by
          simp only [List.length_drop, List.length_cons] at hs ⊢
          omega)]
        exact List.take_append_drop B (x :: xs)

theorem chunksGo_length (B : Nat) (hB : 1 ≤ B) :
    ∀ (fuel : Nat) (s : List α), s.length ≤ fuel →
      (chunksGo B fuel s).length = (s.length + B - 1) / B := by
  intro fuel
  induction fuel with
  | zero =>
      intro s hs
      have hnil : s = [] := List.eq_nil_of_length_eq_zero (by omega)
      subst hnil
      simp only [chunksGo, List.length_nil]
      rw [Nat.div_eq_of_lt (by omega)]
  | succ n ih =>
      intro s hs
      rcases s with _ | ⟨x, xs⟩
      · simp only [chunksGo, List.length_nil]
        rw [Nat.div_eq_of_lt (by omega)]
      · simp only [chunksGo, List.length_cons]
        rw [ih ((x :: xs).drop B) (by
          simp only [List.length_drop, List.length_cons] at hs ⊢
          omega)]
        rw [List.length_drop]
        simp only [List.length_cons]
        rcases le_or_lt B (xs.length + 1) with hle | hgt
        · rw [show xs.length + 1 - B + B - 1 = xs.length + 1 - 1 from by omega]
          rw [show xs.length + 1 + B - 1 = (xs.length + 1 - 1) + B from by
            omega]
          rw [Nat.add_div_right _ (by omega : 0 < B)]
        · rw [show xs.length + 1 - B + B - 1 = B - 1 from by omega]
          rw [Nat.div_eq_of_lt (by omega : B - 1 < B)]
          rw [ceilDivAux B (xs.length + 1) (by omega) (by omega)]

theorem chunksGo_sizes (B : Nat) :
    ∀ (fuel : Nat) (s : List α),
      ∀ b ∈ (chunksGo B fuel s).dropLast, b.length = B := by
  intro fuel
  induction fuel with
  | zero =>
      intro s b hb
      simp [chunksGo] at hb
  | succ n ih =>
      intro s b hb
      rcases s with _ | ⟨x, xs⟩
      · simp [chunksGo] at hb
      · simp only [chunksGo] at hb
        rcases hrest : chunksGo B n ((x :: xs).drop B) with _ | ⟨r, rs⟩
        · rw [hrest] at hb
          simp at hb
        · rw [hrest, List.dropLast_cons₂] at hb
          rcases List.mem_cons.mp hb with h | h
          · subst h
            have hne : (x :: xs).drop B ≠ [] := by
              intro hcontra
              rw [hcontra] at hrest
              cases n <;> simp [chunksGo] at hrest
            have hBlt : B < (x :: xs).length := by
              by_contra hc
              push_neg at hc
              exact hne (List.drop_eq_nil_of_le hc)
            simp only [List.length_take]
            omega
          · rw [← hrest] at h
            exact ih ((x :: xs).drop B) b h

/-! ## Batch-partition properties at the top level -/

theorem makeBatches_flatten (s : List α) (B : Nat) :
    (makeBatches s B).flatten = s := by
  simpa using makeBatchesGo_flatten B s [] []

theorem makeBatches_length (s : List α) (B : Nat) (hB : 1 ≤ B) :
    (makeBatches s B).length = (s.length + B - 1) / B := by
  have := makeBatchesGo_length B hB s [] (by simpa using hB)
  simpa using this

theorem makeBatches_sizes (s : List α) (B : Nat) (hB : 1 ≤ B) :
    ∀ b ∈ (makeBatches s B).dropLast, b.length = B := by
  exact makeBatchesGo_sizes B s [] [] (by simp) (by simpa using hB)

theorem chunksE_flatten (s : List α) (B : Nat) (hB : 1 ≤ B) :
    (chunksE B s).flatten = s := by
  rw [chunksE, if_neg (by omega)]
  exact chunksGo_flatten B hB s.length s (Nat.le_refl _)

theorem chunksE_length (s : List α) (B : Nat) (hB : 1 ≤ B) :
    (chunksE B s).length = (s.length + B - 1) / B := by
  rw [chunksE, if_neg (by omega)]
  exact chunksGo_length B hB s.length s (Nat.le_refl _)

theorem chunksE_sizes (s : List α) (B : Nat) :
    ∀ b ∈ (chunksE B s).dropLast, b.length = B := by
  rw [chunksE]
  by_cases h : B = 0
  · simp [h]
  · rw [if_neg h]
    exact chunksGo_sizes B s.length s

theorem makeBatchesGo_zero_eq_one (s : List α) :
    ∀ bs : List (List α), makeBatchesGo 0 bs [] s = makeBatchesGo 1 bs [] s := by
  induction s with
  | nil => intro bs; rfl
  | cons x xs ih =>
      intro bs
      simp only [makeBatchesGo, List.nil_append, List.length_singleton]
      rw [if_pos (by omega), if_pos (by omega)]
      exact ih _

theorem collectUnordered_nil (σ : List Nat) :
    collectUnordered σ ([] : List β) = [] := by
  induction σ with
  | nil => rfl
  | cons a as ih =>
      simp only [collectUnordered, List.filterMap_cons] at ih ⊢
      simp [ih]

/-! ## Claim theorems -/

/-- C1.  Order preservation fails in the pdf pipeline: `edit_pdf`
feeds the batch tasks through `buffer_unordered` and consumes the
collected results directly, with no reassembly by batch index, so the
output order is the batch completion order.  With two pages, batch
size 1 and concurrency 2, the completion order `[1, 0]` is admissible
for `buffer_unordered` (both tasks are in flight together), and the
pipeline then emits page 2's text before page 1's: the output is NOT
in input order, refuting the claim that output order always matches
input order.  An identity edit function is used, as `main.rs` does. -/
theorem C1_pdf_output_follows_completion_order :
    bufferUnorderedAdmissible 2 2 [1, 0]
      ∧ editPdfSnippets ["p1", "p2"] 1 [1, 0]
          (fun xs => (Except.ok xs : Except String (List String)))
          = Except.ok ["p2", "p1"]
      ∧ ["p2", "p1"] ≠ (["p1", "p2"] : List String) :=
  ⟨⟨by decide, by decide⟩, by rfl, by decide⟩

/-- C2, counterexample.  `batch_size = 0` is not rejected anywhere:
`RequestOptions` is a plain struct (no validating constructor exists
in `src/options.rs`), and the `edit_pdf` pipeline run with
`batch_size = 0` proceeds and succeeds instead of failing with a
configuration error. -/
theorem C2_zero_batch_size_not_rejected :
    (RequestOptions.mk 0 0).batch_size = 0
      ∧ editPdfSnippets ["a"] (RequestOptions.mk 0 0).batch_size [0]
          (fun xs => (Except.ok xs : Except String (List String)))
          = Except.ok ["a"] :=
  ⟨rfl, by rfl⟩

/-- C2, amended.  No construction-time validation exists: a
`RequestOptions` with zero fields is freely constructible, and the pdf
batching loop treats `batch_size = 0` exactly like `batch_size = 1`
(its `>=` flush check makes every batch a singleton), so the run
proceeds normally; empty input yields empty output for every
configuration and completion order. -/
theorem C2_no_validation_and_empty_input :
    (∀ s : List String, makeBatches s 0 = makeBatches s 1)
      ∧ (∀ (B : Nat) (σ : List Nat)
          (f : List String → Except String (List String)),
          editPdfSnippets [] B σ f = Except.ok []) := by
  constructor
  · intro s
    exact makeBatchesGo_zero_eq_one s []
  · intro B σ f
    have hmb : makeBatches ([] : List String) B = [] := by
      simp [makeBatches, makeBatchesGo]
    rw [editPdfSnippets, hmb, collectUnordered_nil]
    rfl

/-- C6.  Batching correctness, for both code paths: with `N` snippets
and batch size `B ≥ 1`, the pdf accumulator loop (`makeBatches`) and
the epub `chunks` call (`chunksE`) produce `⌈N/B⌉` contiguous batches,
every batch except possibly the last has exactly `B` elements, and
concatenating the batches in order reconstructs the input. -/
theorem C6_batching_correct (s : List String) (B : Nat) (hB : 1 ≤ B) :
    (makeBatches s B).flatten = s
      ∧ (makeBatches s B).length = (s.length + B - 1) / B
      ∧ (∀ b ∈ (makeBatches s B).dropLast, b.length = B)
      ∧ (chunksE B s).flatten = s
      ∧ (chunksE B s).length = (s.length + B - 1) / B
      ∧ (∀ b ∈ (chunksE B s).dropLast, b.length = B) :=
  ⟨makeBatches_flatten s B, makeBatches_length s B hB,
   makeBatches_sizes s B hB, chunksE_flatten s B hB,
   chunksE_length s B hB, chunksE_sizes s B⟩

/-- Witness for C6 at `s = ["a", "b", "c"]`, `B = 2`. -/
theorem C6_batching_correct_witness :
    1 ≤ 2 ∧ (makeBatches ["a", "b", "c"] 2).flatten = ["a", "b", "c"]
      ∧ (makeBatches ["a", "b", "c"] 2).length = 2 := by
  refine ⟨by decide,
    (C6_batching_correct ["a", "b", "c"] 2 (by decide)).1, ?_⟩
  rw [(C6_batching_correct ["a", "b", "c"] 2 (by decide)).2.1]
  decide

/-- Step property used for placeholder counting: every protection step
appends exactly one `(placeholder, tag)` pair. -/
theorem foldl_snd_grows
    {step : (List Char × List (List Char × List Char)) → List Char →
      (List Char × List (List Char × List Char))}
    (hstep : ∀ a t, ((step a t).2).length = a.2.length + 1) :
    ∀ (caps : List (List Char)) (a : List Char × List (List Char × List Char)),
      ((caps.foldl step a).2).length = a.2.length + caps.length := by
  intro caps
  induction caps with
  | nil => intro a; simp
  | cons c cs ih =>
      intro a
      simp only [List.foldl_cons, List.length_cons]
      rw [ih, hstep]
      omega

/-- C3, counterexample.  With `min_y_pos = 50`, `max_y_pos = 750`,
`line_height = 14` and one word per line, formatting a 52-line
paragraph leaves 51 `Tj` operations on the first page: the check in
`format_paragraph` runs only after `add_line_to_page` has already
written the line, so the 51st wrapped line is still written to the
current page, not to a fresh one — the claim that line 51 starts a new
page (i.e. that the first page holds only 50 lines) is false. -/
theorem C3_line51_not_on_new_page :
    paraState52.pages.length = 2
      ∧ countTj ((paraState52.pages.get? 0).getD []) = 51
      ∧ ¬ countTj ((paraState52.pages.get? 0).getD []) = 50 :=
  ⟨by decide, by decide, by decide⟩

/-- C3, amended.  Under the same geometry the page break fires one
line later than the claim says: lines 1-51 land on page 1 (the cursor
reaches `750 - 51 * 14 = 36 < 50` only after line 51 is written), and
then a fresh page with the cursor reset to `max_y_pos` is opened, so
line 52 is the first line of page 2. -/
theorem C3_page_break_after_line51 :
    paraState52.pages.length = 2
      ∧ countTj ((paraState52.pages.get? 0).getD []) = 51
      ∧ countTj ((paraState52.pages.get? 1).getD []) = 1
      ∧ List.isPrefixOf new_page_operations
          ((paraState52.pages.get? 1).getD []) = true :=
  ⟨by decide, by decide, by decide, by decide⟩

/-- C4, counterexample.  Protection of eleven distinct pagebreak tags
records exactly eleven `(placeholder, tag)` pairs, but restoration is
plain sequential string replacement and `SPECIAL_TAG_1` is a prefix of
`SPECIAL_TAG_10`, so restoring token 1 corrupts the occurrence of
token 10 (the last tag comes back as `<b pagebreak>0` instead of
`<k pagebreak>`): the round trip is not byte-identical. -/
theorem C4_restore_corrupts_with_eleven_tags :
    (replace_special_tags htmlEleven pagebreakTags11).2.length = 11
      ∧ restore_special_tags
          (replace_special_tags htmlEleven pagebreakTags11).1
          (replace_special_tags htmlEleven pagebreakTags11).2
          ≠ htmlEleven :=
  ⟨by decide, by decide⟩

/-- C4, amended.  Protection always records exactly one pair per regex
capture (K captures give K tokens), and the round trip is
byte-identical while no recorded placeholder occurs inside another
surviving one — e.g. for the two-tag document — but not in general
(eleven or more tokens corrupt, see the counterexample). -/
theorem C4_tokens_counted_and_small_round_trip :
    (∀ (html : List Char) (caps : List (List Char)),
        (replace_special_tags html caps).2.length = caps.length)
      ∧ restore_special_tags (replace_special_tags htmlTwo pagebreakTags2).1
          (replace_special_tags htmlTwo pagebreakTags2).2 = htmlTwo := by
  constructor
  · intro html caps
    simp only [replace_special_tags]
    rw [foldl_snd_grows (fun a t => by simp) caps (html, [])]
    simp
  · decide

/-- C5, counterexample.  When the translation drops the placeholder
(`SPECIAL_TAG_0hello` comes back as `hello`), `edit_html` does not
fail: it returns `Ok` and the pagebreak tag is simply gone from the
output.  No integrity check exists between write-back and
restoration. -/
theorem C5_dropped_placeholder_no_error :
    edit_html htmlWithTag [pbTag] (fun s => [HNode.raw s]) 1 [0]
        (fun _ => Except.ok ["hello".data])
      = Except.ok "hello".data
      ∧ countOcc "hello".data pbTag = 0 :=
  ⟨by rfl, by decide⟩

/-- C5, amended.  `restore_special_tags` replaces whatever placeholder
occurrences remain, silently: a translation that corrupts the
placeholder text (here to `SPECIAL_TAGXhello`) still yields `Ok`, with
the corrupted token left verbatim in the output and the original tag
absent — the mismatch is not surfaced as an error. -/
theorem C5_altered_placeholder_silently_kept :
    edit_html htmlWithTag [pbTag] (fun s => [HNode.raw s]) 1 [0]
        (fun _ => Except.ok ["SPECIAL_TAGXhello".data])
      = Except.ok "SPECIAL_TAGXhello".data
      ∧ countOcc "SPECIAL_TAGXhello".data pbTag = 0 :=
  ⟨by rfl, by decide⟩

/-- C7, counterexample.  A spine item whose manifest entry exists but
whose backing resource cannot be read (and that was not edited) makes
`add_content_with_chapters` return an error — the run aborts instead
of logging and skipping, refuting the claim that a missing backing
resource never aborts assembly. -/
theorem C7_unreadable_resource_aborts :
    add_content_with_chapters epubDocUnreadable (fun _ => none)
      = Except.error "Resource not found p1" := by
  rfl

/-- C7, amended.  Only a spine item with no manifest (`resources`)
entry is logged and skipped with assembly continuing — shown both for
an edited and an unedited surviving item — while an item whose
manifest entry exists but whose backing data cannot be read aborts
the run with an error. -/
theorem C7_spine_item_handling :
    add_content_with_chapters epubDocMissingEntry
        (fun item_id => if item_id = "c2" then some "edited" else none)
      = Except.ok [("p2", "edited", "c2")]
      ∧ add_content_with_chapters epubDocMissingEntry (fun _ => none)
        = Except.ok [("p2", "original", "c2")]
      ∧ add_content_with_chapters
          (⟨["c1"], fun _ => some ("p1", "m"), fun _ => none⟩ : EpubDocM)
          (fun _ => none)
        = Except.error "Resource not found p1" :=
  ⟨by rfl, by rfl, by rfl⟩

/-! ## Page-list nonemptiness (C8 support) -/

/-- Fold preservation: a property stable under the step function is
stable under `foldl`. -/
theorem foldl_preserves {β γ : Type _} (P : β → Prop) (step : β → γ → β)
    (hstep : ∀ b a, P b → P (step b a)) :
    ∀ (l : List γ) (b : β), P b → P (l.foldl step b) := by
  intro l
  induction l with
  | nil => intro b hb; exact hb
  | cons x xs ih => intro b hb; exact ih _ (hstep b x hb)

theorem add_line_pages_ne (st : PagesState) (t : List Char) (h : Fr)
    (hne : st.pages ≠ []) : (add_line_to_page st t h).pages ≠ [] := by
  unfold add_line_to_page
  cases hl : st.pages.getLast? with
  | none => exact hne
  | some last => simp

theorem check_pages_ne (st : PagesState) (o : PdfOptions)
    (hne : st.pages ≠ []) : (check_and_create_new_page st o).pages ≠ [] := by
  unfold check_and_create_new_page
  cases hc : Fr.blt st.y_pos o.min_y_pos <;> simp [hc, hne]

theorem add_paragraph_spacing_pages_ne (o : PdfOptions) (st : PagesState)
    (sp : Fr) (hne : st.pages ≠ []) :
    (add_paragraph_spacing o st sp).pages ≠ [] := by
  unfold add_paragraph_spacing
  cases hl : st.pages.getLast? with
  | none => exact hne
  | some last =>
      cases hc : Fr.blt (Fr.sub st.y_pos sp) o.min_y_pos <;> simp [hc]

theorem end_text_pages_ne (st : PagesState) (hne : st.pages ≠ []) :
    (end_text_section st).pages ≠ [] := by
  unfold end_text_section
  cases hl : st.pages.getLast? with
  | none => exact hne
  | some last => simp

theorem create_new_page_pages_ne (st : PagesState) (y : Fr) :
    (create_new_page_for_image st y).pages ≠ [] := by
  unfold create_new_page_for_image
  cases hl : (st.pages ++ [new_page_operations]).getLast? with
  | none => simp
  | some last => simp

theorem add_image_pages_ne (o : PdfOptions) (st : PagesState)
    (img : PdfImage) (hne : st.pages ≠ []) :
    (add_image o st img).pages ≠ [] := by
  simp only [add_image]
  split
  · split
    · exact create_new_page_pages_ne st o.max_y_pos
    · exact hne
  · simp

theorem formatParaStep_fst_ne (o : PdfOptions) (acc : PagesState × List Char)
    (w : List Char) (hne : acc.1.pages ≠ []) :
    (formatParaStep o acc w).1.pages ≠ [] := by
  simp only [formatParaStep]
  apply check_pages_ne
  split
  all_goals split
  all_goals first
    | exact add_line_pages_ne _ _ _ hne
    | exact hne

theorem format_paragraph_pages_ne (o : PdfOptions) (st : PagesState)
    (p : List Char) (hne : st.pages ≠ []) :
    (format_paragraph o st p).pages ≠ [] := by
  simp only [format_paragraph]
  apply add_paragraph_spacing_pages_ne
  have hfold : ((splitWs p).foldl (formatParaStep o) (st, [])).1.pages ≠ [] :=
    foldl_preserves (fun acc : PagesState × List Char => acc.1.pages ≠ [])
      (formatParaStep o) (fun b a hb => formatParaStep_fst_ne o b a hb)
      (splitWs p) (st, []) hne
  split
  · exact hfold
  · exact add_line_pages_ne _ _ _ hfold

theorem format_content_pages_ne (o : PdfOptions) (st : PagesState)
    (ps : List (List Char)) (imgs : List PdfImage) (hne : st.pages ≠ []) :
    (format_content o st ps imgs).pages ≠ [] := by
  simp only [format_content]
  apply end_text_pages_ne
  apply foldl_preserves (fun st : PagesState => st.pages ≠ []) (add_image o)
    (fun b a hb => add_image_pages_ne o b a hb) imgs
  apply end_text_pages_ne
  apply foldl_preserves (fun st : PagesState => st.pages ≠ [])
    (format_paragraph o) (fun b a hb => format_paragraph_pages_ne o b a hb) ps
  exact hne

/-- C8.  The pagination state's open-page list is non-empty at every
reachable point: `PagesState::new` starts with one fresh page, and
every operation of the engine (each entry point the `edit_pdf` merge
loop can invoke, including the composite ones) preserves
non-emptiness, since pages are only appended or have their last
element modified.  Hence every `pages.last_mut()` lookup inside
`add_line_to_page`, `add_paragraph_spacing`, `end_text_section` and
`add_image` finds a page and their `None` branch is unreachable. -/
theorem C8_pages_never_empty (options : PdfOptions) (steps : List PdfStep) :
    (steps.foldl (applyPdfStep options) (PagesState.new options)).pages ≠ [] := by
  apply foldl_preserves (fun st : PagesState => st.pages ≠ [])
    (applyPdfStep options) ?_ steps (PagesState.new options)
    (by simp [PagesState.new])
  intro b a hb
  cases a with
  | line t h2 => exact add_line_pages_ne b t h2 hb
  | pageCheck => exact check_pages_ne b options hb
  | spacing amount => exact add_paragraph_spacing_pages_ne options b amount hb
  | endText => exact end_text_pages_ne b hb
  | image img => exact add_image_pages_ne options b img hb
  | paragraph t => exact format_paragraph_pages_ne options b t hb
  | content ps imgs => exact format_content_pages_ne options b ps imgs hb

/-! ## Intra-batch association (C9 support) -/

theorem zip_get_some (xs : List γ) :
    ∀ (ys : List δ) (j : Nat) (x : γ) (y : δ),
      xs.get? j = some x → ys.get? j = some y →
      (xs.zip ys).get? j = some (x, y) := by
  induction xs with
  | nil =>
      intro ys j x y hx _
      simp at hx
  | cons a as ih =>
      intro ys j x y hx hy
      cases ys with
      | nil => simp at hy
      | cons b bs =>
          cases j with
          | zero =>
              simp only [List.get?] at hx hy
              simp only [List.zip_cons_cons, List.get?]
              rw [Option.some_inj.mp hx, Option.some_inj.mp hy]
          | succ n =>
              simp only [List.get?] at hx hy
              simp only [List.zip_cons_cons, List.get?]
              exact ih bs n x y hx hy

/-- C9.  Intra-batch association in `edit_pdf`: a batch's task unzips
the `(text, page_id)` pairs, translates the text half and re-pairs
positionally, so the `j`-th translated string is paired with the
`j`-th source page id of that batch; and whatever completion order
`σ` delivers the batches in, the batch's block appears contiguously
(as an infix) in the merged output, with its internal order intact. -/
theorem C9_intra_batch_association
    (batches : List (List (String × Nat))) (σ : List Nat)
    (f : List String → List String) (i : Nat) (b : List (String × Nat))
    (hb : batches.get? i = some b) (hσ : i ∈ σ) :
    batchTask f b <:+: editPdfMergedPairs batches σ f
      ∧ ∀ (j : Nat) (t : String) (p : Nat),
          (f b.unzip.1).get? j = some t → b.unzip.2.get? j = some p →
          (batchTask f b).get? j = some (t, p) := by
  constructor
  · apply List.infix_of_mem_flatten
    apply List.mem_map_of_mem
    exact List.mem_filterMap.mpr ⟨i, hσ, hb⟩
  · intro j t p ht hp
    exact zip_get_some _ _ _ _ _ ht hp

/-- Witness for C9: two batches, completion order `[1, 0]`, identity
translation; batch 0's block is an infix of the merged output. -/
theorem C9_intra_batch_association_witness :
    ([[("a", 1), ("b", 2)], [("c", 3)]] :
        List (List (String × Nat))).get? 0 = some [("a", 1), ("b", 2)]
      ∧ (0 ∈ [1, 0])
      ∧ batchTask (fun l => l) [("a", 1), ("b", 2)]
          <:+: editPdfMergedPairs [[("a", 1), ("b", 2)], [("c", 3)]] [1, 0]
            (fun l => l) := by
  refine ⟨by rfl, by decide, ?_⟩
  exact (C9_intra_batch_association [[("a", 1), ("b", 2)], [("c", 3)]] [1, 0]
    (fun l => l) 0 [("a", 1), ("b", 2)] (by rfl) (by decide)).1

/-! ## Whitespace filtering (C10 support) -/

theorem filter_length_lt (p : γ → Bool) :
    ∀ l : List γ, (∃ x ∈ l, p x = false) → (l.filter p).length < l.length := by
  intro l
  induction l with
  | nil => intro h; simp at h
  | cons a as ih =>
      intro h
      cases hpa : p a with
      | false =>
          simp only [List.filter_cons, hpa, Bool.false_eq_true, if_neg,
            not_false_iff, List.length_cons]
          have := List.length_filter_le p as
          omega
      | true =>
          simp only [List.filter_cons, hpa, if_pos, List.length_cons]
          obtain ⟨x, hx, hpx⟩ := h
          rcases List.mem_cons.mp hx with h' | h'
          · rw [h'] at hpx
            rw [hpx] at hpa
            cases hpa
          · have := ih ⟨x, h', hpx⟩
            simpa using Nat.succ_lt_succ this

/-- C10.  The bundled Google `translate_text` filters whitespace-only
snippets out before building the request; if the service echoes one
translation per request item, any input containing a whitespace-only
snippet produces strictly fewer outputs than inputs, breaking the
same-length port contract the core relies on. -/
theorem C10_whitespace_filter_shrinks_output (snippets : List String)
    (service : List String → List String)
    (hlen : ∀ reqs, (service reqs).length = reqs.length)
    (hws : ∃ s ∈ snippets, is_whitespace s = true) :
    (translate_text snippets service).length < snippets.length := by
  rw [translate_text, hlen]
  apply filter_length_lt
  obtain ⟨s, hs, hw⟩ := hws
  exact ⟨s, hs, by simp [hw]⟩

/-- Witness for C10: `[" "]` is whitespace-only; with an echo service
the output is shorter than the input. -/
theorem C10_whitespace_filter_shrinks_output_witness :
    is_whitespace " " = true
      ∧ (translate_text ["hi", " "] (fun l => l)).length < 2 := by
  refine ⟨by decide, ?_⟩
  exact C10_whitespace_filter_shrinks_output ["hi", " "] (fun l => l)
    (fun reqs => rfl) ⟨" ", by decide, by decide⟩
